import Mathlib

/-!
# Verification of the DNO generator (dno_gen.py / dno_gen_optimized.py)

Shallow embedding of the core of the DNO (Do Not Originate) generator:

* the key-space generators (`generate_all_possible_npa`, the NXX loops and
  the numeric block range) become the lists `npaCodes`, `nxxCodes`,
  `blockStrs`, and the 6.4M-triple universe becomes `universeFinset`;
* the record-processing part of `fetch_assigned_for_npa_bulk`
  (grouping by zero-padded NPA-NXX key, the catch-all `A` block rule)
  becomes `assignedOf`;
* the two-step legacy pipeline (`fetch_nxx_combinations_for_npa`,
  `fetch_blocks_for_npa_nxx`, `fetch_assigned_for_npa_legacy`) becomes
  `legacyAssigned`, viewed as a pure function of the ledger of raw records
  both strategies observe;
* `condense_unassigned` becomes `condense_unassigned` on finite sets of
  triples (the source manipulates dash-joined strings "NPA-NXX-B"; the
  embedding uses the structurally identical triples, with the three
  condensed output shapes made explicit by the inductive `CondensedEntry`);
* `make_api_request_with_retry` becomes `retryAux`, driven by an oracle of
  per-attempt outcomes and a jitter oracle, recording the sequence of
  back-off waits;
* the pagination loops become `fetch_bulk_records` (the uncaught, bulk
  loop of `fetch_assigned_for_npa_bulk`) and `fetch_nxx_combinations`
  (the legacy step-1 loop whose `except ... break` swallows failures),
  driven by a page oracle keyed by request offset.

Network I/O is modelled by oracles: a function from the request offset (or
attempt index) to the data the call would produce, so every fetch loop is a
pure function of that oracle.
-/

/-- A fully qualified (NPA, NXX, block) triple.  The source represents these
as dash-joined strings "NPA-NXX-B"; the embedding keeps the three components
separate. -/
abbrev Triple := String × String × String

/-- The source's `generate_all_possible_npa`: all NPA codes, first digit 2-9, the other
two 0-9, in generation order. -/
def npaCodes : List String :=
  (List.range' 2 8).flatMap fun n =>
    (List.range 10).flatMap fun x1 =>
      (List.range 10).map fun x2 => toString n ++ toString x1 ++ toString x2

/-- The NXX codes enumerated by `generate_all_possible_npa_nxx_block` and by
the roll-up check inside `condense_unassigned`: same digit constraints as
NPA codes (first digit 2-9, the other two 0-9). -/
def nxxCodes : List String :=
  (List.range' 2 8).flatMap fun n =>
    (List.range 10).flatMap fun x1 =>
      (List.range 10).map fun x2 => toString n ++ toString x1 ++ toString x2

/-- The numeric block identifiers `str(0) .. str(9)` (the catch-all marker
"A" is deliberately excluded, as in `generate_all_possible_npa_nxx_block`). -/
def blockStrs : List String := (List.range 10).map fun b => toString b

/-- Membership in the Universe, component-wise: valid NPA, valid NXX and a
numeric block 0-9. -/
def validTriple (t : Triple) : Prop :=
  t.1 ∈ npaCodes ∧ t.2.1 ∈ nxxCodes ∧ t.2.2 ∈ blockStrs

instance (t : Triple) : Decidable (validTriple t) := by
  unfold validTriple; infer_instance

/-- The source's `generate_all_possible_npa_nxx_block`: the full Universe of
800 × 800 × 10 = 6,400,000 triples, as a finite set. -/
def universeFinset : Finset Triple :=
  npaCodes.toFinset ×ˢ nxxCodes.toFinset ×ˢ blockStrs.toFinset

attribute [irreducible] universeFinset

/-- A raw assignment record as returned by the registry (the `npa`, `nxx`
and `block_id` fields read off each JSON record). -/
structure RawRecord where
  npa : String
  nxx : String
  block_id : String
deriving DecidableEq, Repr

/-- Python's `str.zfill(3)` on the record fields: left-pad with zeros to
width 3 (the sign handling of `zfill` is irrelevant for these fields). -/
def zfill3 (s : String) : String :=
  if s.length ≥ 3 then s else String.mk (List.replicate (3 - s.length) '0') ++ s

/-- The zero-padded NPA-NXX grouping key `f"{npa_val}-{nxx_val}"` of a
record (kept as a pair instead of a dash-joined string). -/
def recKey (r : RawRecord) : String × String := (zfill3 r.npa, zfill3 r.nxx)

/-- The truthiness guard `if npa_val and nxx_val and block_id` of
`fetch_assigned_for_npa_bulk` (all three fields non-empty; the first two are
tested after zero-padding). -/
def recOK (r : RawRecord) : Bool :=
  !(zfill3 r.npa == "") && !(zfill3 r.nxx == "") && !(r.block_id == "")

/-- The keys of the `npa_nxx_blocks` dict built by
`fetch_assigned_for_npa_bulk`: one per distinct padded NPA-NXX among the
records that pass the truthiness guard. -/
def bulkKeys (records : List RawRecord) : Finset (String × String) :=
  ((records.filter recOK).map recKey).toFinset

/-- The `has_a` flag of a key's block state: some guarded record with this
key carries the catch-all marker "A". -/
def bulkHasA (records : List RawRecord) (k : String × String) : Bool :=
  (records.filter recOK).any fun r => recKey r == k && r.block_id == "A"

/-- The `numeric` set of a key's block state: every non-"A" `block_id` of a
guarded record with this key. -/
def bulkNumeric (records : List RawRecord) (k : String × String) : Finset String :=
  (((records.filter recOK).filter fun r => recKey r == k && !(r.block_id == "A")).map
    (·.block_id)).toFinset

/-- The A-block resolution of `fetch_assigned_for_npa_bulk` (lines 327-361)
and `process_npa_records`: per key, if the catch-all flag is set and no
numeric block was listed, all ten blocks 0-9 are assigned; otherwise exactly
the numeric blocks listed are assigned. -/
def assignedOf (records : List RawRecord) : Finset Triple :=
  (bulkKeys records).biUnion fun k =>
    if bulkHasA records k && (bulkNumeric records k).card == 0 then
      blockStrs.toFinset.image fun b => (k.1, k.2, b)
    else
      (bulkNumeric records k).image fun b => (k.1, k.2, b)

/-- The assigned triples carrying a given key, `(assignedOf …)` restricted
to one CompositeKey. -/
def keyAssigned (records : List RawRecord) (a x : String) : Finset Triple :=
  (assignedOf records).filter fun t => t.1 = a ∧ t.2.1 = x

/-- Step 1 of the legacy strategy (`fetch_nxx_combinations_for_npa`):
the distinct padded NPA-NXX keys, taken from records whose raw `npa` and
`nxx` fields are truthy *before* padding (line 216). -/
def legacyStep1Keys (records : List RawRecord) : Finset (String × String) :=
  ((records.filter fun r => !(r.npa == "") && !(r.nxx == "")).map recKey).toFinset

/-- Step 2 of the legacy strategy (`fetch_blocks_for_npa_nxx`): the numeric
(non-"A", truthy) block ids among the records of one key. -/
def legacyNumeric (records : List RawRecord) (k : String × String) : Finset String :=
  ((records.filter fun r =>
      recKey r == k && !(r.block_id == "") && !(r.block_id == "A")).map
    (·.block_id)).toFinset

/-- Step 2 of the legacy strategy: the `has_a` flag of one key. -/
def legacyHasA (records : List RawRecord) (k : String × String) : Bool :=
  records.any fun r => recKey r == k && r.block_id == "A"

/-- The source's `fetch_assigned_for_npa_legacy`: numeric blocks of every discovered key,
united with all ten blocks of every key whose state is catch-all-only
(the two accumulation phases of the source, lines 382-409). -/
def legacyAssigned (records : List RawRecord) : Finset Triple :=
  ((legacyStep1Keys records).biUnion fun k =>
      (legacyNumeric records k).image fun b => (k.1, k.2, b)) ∪
    ((legacyStep1Keys records).filter fun k =>
        legacyHasA records k && (legacyNumeric records k).card == 0).biUnion fun k =>
      blockStrs.toFinset.image fun b => (k.1, k.2, b)

/-- Code-point lexicographic comparison of character lists, the order
Python's `sorted` uses on strings (and the order of Lean's `String` ≤,
re-implemented structurally so the kernel can evaluate it). -/
def lexLe : List Char → List Char → Bool
  | [], _ => true
  | _ :: _, [] => false
  | c1 :: l1, c2 :: l2 =>
    if c1.toNat < c2.toNat then true
    else if c2.toNat < c1.toNat then false
    else lexLe l1 l2

/-- Python's string comparison: code-point lexicographic order. -/
def pyLe (s1 s2 : String) : Prop := lexLe s1.data s2.data = true

instance (s1 s2 : String) : Decidable (pyLe s1 s2) := by
  unfold pyLe; infer_instance

instance : IsTotal String pyLe where
  total := by
    suffices h : ∀ l1 l2 : List Char, lexLe l1 l2 = true ∨ lexLe l2 l1 = true by
      intro s1 s2; exact h s1.data s2.data
    intro l1
    induction l1 with
    | nil => intro l2; exact Or.inl rfl
    | cons c1 l1 ih =>
      intro l2
      cases l2 with
      | nil => exact Or.inr rfl
      | cons c2 l2 =>
        rcases Nat.lt_trichotomy c1.toNat c2.toNat with ha | ha | ha
        · refine Or.inl ?_
          simp only [lexLe]
          rw [if_pos ha]
        · rcases ih l2 with h | h
          · refine Or.inl ?_
            simp only [lexLe]
            rw [if_neg (by omega), if_neg (by omega)]
            exact h
          · refine Or.inr ?_
            simp only [lexLe]
            rw [if_neg (by omega), if_neg (by omega)]
            exact h
        · refine Or.inr ?_
          simp only [lexLe]
          rw [if_pos ha]

instance : IsTrans String pyLe where
  trans := by
    suffices h : ∀ l1 l2 l3 : List Char,
        lexLe l1 l2 = true → lexLe l2 l3 = true → lexLe l1 l3 = true by
      intro a b c h1 h2; exact h a.data b.data c.data h1 h2
    intro l1
    induction l1 with
    | nil => intro l2 l3 _ _; rfl
    | cons c1 l1 ih =>
      intro l2 l3 h12 h23
      cases l2 with
      | nil => simp [lexLe] at h12
      | cons c2 l2 =>
        cases l3 with
        | nil => simp [lexLe] at h23
        | cons c3 l3 =>
          rcases Nat.lt_trichotomy c1.toNat c2.toNat with ha | ha | ha <;>
            rcases Nat.lt_trichotomy c2.toNat c3.toNat with hb | hb | hb
          · simp only [lexLe]
            rw [if_pos (by omega)]
          · simp only [lexLe]
            rw [if_pos (by omega)]
          · simp only [lexLe] at h23
            rw [if_neg (by omega), if_pos (by omega)] at h23
            exact absurd h23 (by simp)
          · simp only [lexLe]
            rw [if_pos (by omega)]
          · simp only [lexLe] at h12 h23 ⊢
            rw [if_neg (by omega), if_neg (by omega)] at h12
            rw [if_neg (by omega), if_neg (by omega)] at h23
            rw [if_neg (by omega), if_neg (by omega)]
            exact ih l2 l3 h12 h23
          · simp only [lexLe] at h23
            rw [if_neg (by omega), if_pos (by omega)] at h23
            exact absurd h23 (by simp)
          · simp only [lexLe] at h12
            rw [if_neg (by omega), if_pos (by omega)] at h12
            exact absurd h12 (by simp)
          · simp only [lexLe] at h12
            rw [if_neg (by omega), if_pos (by omega)] at h12
            exact absurd h12 (by simp)
          · simp only [lexLe] at h12
            rw [if_neg (by omega), if_pos (by omega)] at h12
            exact absurd h12 (by simp)

instance : IsAntisymm String pyLe where
  antisymm := by
    suffices h : ∀ l1 l2 : List Char, lexLe l1 l2 = true → lexLe l2 l1 = true → l1 = l2 by
      intro a b h1 h2; exact String.ext (h a.data b.data h1 h2)
    intro l1
    induction l1 with
    | nil =>
      intro l2 _ h21
      cases l2 with
      | nil => rfl
      | cons c2 l2 => simp [lexLe] at h21
    | cons c1 l1 ih =>
      intro l2 h12 h21
      cases l2 with
      | nil => simp [lexLe] at h12
      | cons c2 l2 =>
        rcases Nat.lt_trichotomy c1.toNat c2.toNat with ha | ha | ha
        · simp only [lexLe] at h21
          rw [if_neg (by omega), if_pos (by omega)] at h21
          exact absurd h21 (by simp)
        · have hc : c1 = c2 := Char.eq_of_val_eq (UInt32.toNat.inj ha)
          subst hc
          simp only [lexLe, lt_self_iff_false, if_false] at h12 h21
          rw [ih l2 h12 h21]
        · simp only [lexLe] at h12
          rw [if_neg (by omega), if_pos (by omega)] at h12
          exact absurd h12 (by simp)

/-- Python's `sorted(...)` on a set of strings: a computable ascending sort
of a finite set of strings (insertion sort in code-point order, lifted to
the underlying multiset; it agrees with `Finset.sort`, see
`sortFinset_eq_sort`). -/
def sortFinset (s : Finset String) : List String :=
  Quot.liftOn s.val (fun l => l.insertionSort pyLe) fun l1 l2 h =>
    List.eq_of_perm_of_sorted
      ((List.perm_insertionSort _ l1).trans ((h : l1.Perm l2).trans
        (List.perm_insertionSort _ l2).symm))
      (List.sorted_insertionSort _ l1) (List.sorted_insertionSort _ l2)

/-! ## The range condenser (`condense_unassigned`, lines 751-829) -/

/-- The per-NPA grouping `npa_data[npa]`s key set: the NXX values of the
unassigned triples under one NPA. -/
def nxxsOf (U : Finset Triple) (a : String) : Finset String :=
  (U.filter fun t => t.1 = a).image fun t => t.2.1

/-- The block set `npa_data[npa][nxx]` of the grouping. -/
def blocksOf (U : Finset Triple) (a x : String) : Finset String :=
  (U.filter fun t => t.1 = a ∧ t.2.1 = x).image fun t => t.2.2

/-- The set of NPAs occurring in the unassigned set (the keys of
`npa_data`). -/
def npasOf (U : Finset Triple) : Finset String := U.image fun t => t.1

/-- The `all_nxx_unassigned` scan of `condense_unassigned`: every generated
NXX is present under this NPA, with a 10-element block set containing every
numeric block 0-9 (short-circuiting exactly like the source's `break`s). -/
def allNxxUnassigned (U : Finset Triple) (a : String) : Bool :=
  nxxCodes.all fun x =>
    decide (x ∈ nxxsOf U a) && ((blocksOf U a x).card == 10) &&
      (List.range 10).all fun b => decide (toString b ∈ blocksOf U a x)

/-- A condensed output entry.  The source emits the strings `npa`,
`f"{npa}-{nxx}"` and `f"{npa}-{nxx}-{block}"`; the three shapes are the
spec's `ByTopLevel` / `ByComposite` / `ByTriple` variants. -/
inductive CondensedEntry where
  | byTopLevel (npa : String)
  | byComposite (npa nxx : String)
  | byTriple (npa nxx block : String)
deriving DecidableEq, Repr

/-- The per-NXX branch of `condense_unassigned`: a full 10-block set that
contains every digit collapses to one NPA-NXX entry, anything else is listed
block by block in ascending order. -/
def condensePerNxx (U : Finset Triple) (a x : String) : List CondensedEntry :=
  let B := blocksOf U a x
  if B.card == 10 then
    if (List.range 10).all fun b => decide (toString b ∈ B) then
      [CondensedEntry.byComposite a x]
    else (sortFinset B).map (CondensedEntry.byTriple a x)
  else (sortFinset B).map (CondensedEntry.byTriple a x)

/-- The per-NPA branch of `condense_unassigned`: a fully unassigned NPA
(every generated NXX present and full, and no other NXX keys) collapses to
one bare NPA entry, otherwise each NXX is condensed in ascending order. -/
def condensePerNpa (U : Finset Triple) (a : String) : List CondensedEntry :=
  if allNxxUnassigned U a && ((nxxsOf U a).card == nxxCodes.length) then
    [CondensedEntry.byTopLevel a]
  else
    (sortFinset (nxxsOf U a)).flatMap fun x => condensePerNxx U a x

/-- The source's `condense_unassigned`: condense the unassigned set to the lowest common
denominator, NPAs in ascending order. -/
def condense_unassigned (U : Finset Triple) : List CondensedEntry :=
  (sortFinset (npasOf U)).flatMap fun a => condensePerNpa U a

/-- Expansion of one condensed entry back to the triples it covers: a bare
NPA covers all 8,000 triples under it, an NPA-NXX covers its 10 triples, and
a full triple covers itself. -/
def expandEntry : CondensedEntry → Finset Triple
  | CondensedEntry.byTopLevel a =>
      ({a} : Finset String) ×ˢ nxxCodes.toFinset ×ˢ blockStrs.toFinset
  | CondensedEntry.byComposite a x =>
      ({a} : Finset String) ×ˢ ({x} : Finset String) ×ˢ blockStrs.toFinset
  | CondensedEntry.byTriple a x b => {(a, x, b)}

/-- Expansion of a condensed sequence, as a multiset so that duplication
across entries would be visible. -/
def expandEntries (l : List CondensedEntry) : Multiset Triple :=
  (l.map fun e => (expandEntry e).val).sum

/-- Expansion of a condensed sequence, as a set of triples. -/
def expandFinset (l : List CondensedEntry) : Finset Triple :=
  (expandEntries l).toFinset

/-! ## The resilient fetch client (`make_api_request_with_retry`, lines 120-179) -/

/-- The constant `MAX_RETRIES = 3`. -/
def MAX_RETRIES : Nat := 3

/-- The constant `INITIAL_RETRY_DELAY = 1.0` seconds. -/
def INITIAL_RETRY_DELAY : ℚ := 1

/-- The constant `MAX_RETRY_DELAY = 30.0` seconds. -/
def MAX_RETRY_DELAY : ℚ := 30

/-- The constant `MAX_LIMIT_PER_REQUEST = 10000`, the bulk page size. -/
def MAX_LIMIT_PER_REQUEST : Nat := 10000

/-- What one attempt of the request can produce: a parsed body, a
`urllib.error.URLError`-class failure (timeouts and connection errors
included, carrying the HTTP status code when there is one), or a
`json.JSONDecodeError`. -/
inductive AttemptResult (α : Type) where
  | success (a : α)
  | urlError (code : Option Nat)
  | jsonError
deriving DecidableEq, Repr

/-- The exception re-raised after the final failed attempt. -/
inductive RetryErr where
  | urlErr (code : Option Nat)
  | jsonErr
deriving DecidableEq, Repr

/-- How a call of `make_api_request_with_retry` can end: with the parsed
body of a successful attempt, by raising the last exception, or by the
`return None` fall-through after the loop. -/
inductive RetryOutcome (α : Type) where
  | ok (a : α)
  | raised (e : RetryErr)
  | returnedNone
deriving DecidableEq, Repr

/-- Trace of one call of the retry loop: how it ended, the back-off sleeps
it performed (in seconds, in order), and how many attempts it made. -/
structure RetryRun (α : Type) where
  outcome : RetryOutcome α
  waits : List ℚ
  attempts : Nat
deriving DecidableEq, Repr

/-- The retry loop of `make_api_request_with_retry`, driven by an oracle
`resp` giving the outcome of each attempt and a jitter oracle `f` giving
the fraction drawn by `random.uniform(0, retry_delay * 0.1)` as a multiple
of `retry_delay` (so a faithful jitter satisfies `0 ≤ f i ≤ 1/10`).
The first argument is the remaining number of attempts
(`MAX_RETRIES - attempt`); on a rate-limit response (HTTP 429) the delay is
doubled (capped) *before* the jittered sleep, and after every non-final
failed attempt the delay is additionally multiplied by 1.5 (capped).  A
JSON parse failure sleeps the bare delay, without jitter. -/
def retryAux {α : Type} (resp : Nat → AttemptResult α) (f : Nat → ℚ) :
    Nat → Nat → ℚ → RetryRun α
  | 0, _, _ => ⟨RetryOutcome.returnedNone, [], 0⟩
  | fuel + 1, attempt, delay =>
    match resp attempt with
    | AttemptResult.success a => ⟨RetryOutcome.ok a, [], 1⟩
    | AttemptResult.urlError code =>
      let d1 := if code = some 429 then min (delay * 2) MAX_RETRY_DELAY else delay
      if fuel = 0 then ⟨RetryOutcome.raised (RetryErr.urlErr code), [], 1⟩
      else
        let w := d1 + d1 * f attempt
        let r := retryAux resp f fuel (attempt + 1) (min (d1 * (3 / 2)) MAX_RETRY_DELAY)
        ⟨r.outcome, w :: r.waits, r.attempts + 1⟩
    | AttemptResult.jsonError =>
      if fuel = 0 then ⟨RetryOutcome.raised RetryErr.jsonErr, [], 1⟩
      else
        let r := retryAux resp f fuel (attempt + 1) (min (delay * (3 / 2)) MAX_RETRY_DELAY)
        ⟨r.outcome, delay :: r.waits, r.attempts + 1⟩

/-- The retry client `make_api_request_with_retry` with a configurable attempt ceiling
(the source fixes it to `MAX_RETRIES`). -/
def makeApiRequestWithRetryN {α : Type} (resp : Nat → AttemptResult α) (f : Nat → ℚ)
    (maxRetries : Nat) : RetryRun α :=
  retryAux resp f maxRetries 0 INITIAL_RETRY_DELAY

/-- The retry client `make_api_request_with_retry` as configured in the source:
`MAX_RETRIES` attempts starting from `INITIAL_RETRY_DELAY`. -/
def make_api_request_with_retry {α : Type} (resp : Nat → AttemptResult α)
    (f : Nat → ℚ) : RetryRun α :=
  makeApiRequestWithRetryN resp f MAX_RETRIES

/-- The back-off schedule that claim C6 describes, literally: after each
failed non-final attempt wait the *current* delay plus jitter, and only then
grow the delay — by 1.5 for a generic failure, by 2 for a rate-limit
signal — capped at the maximum delay. -/
def claimedWaits {α : Type} (resp : Nat → AttemptResult α) (f : Nat → ℚ) :
    Nat → Nat → ℚ → List ℚ
  | 0, _, _ => []
  | fuel + 1, attempt, delay =>
    match resp attempt with
    | AttemptResult.success _ => []
    | AttemptResult.urlError code =>
      if fuel = 0 then []
      else
        (delay + delay * f attempt) ::
          claimedWaits resp f fuel (attempt + 1)
            (min (delay * (if code = some 429 then 2 else 3 / 2)) MAX_RETRY_DELAY)
    | AttemptResult.jsonError =>
      if fuel = 0 then []
      else delay :: claimedWaits resp f fuel (attempt + 1) (min (delay * (3 / 2)) MAX_RETRY_DELAY)

/-! ## Pagination (`fetch_assigned_for_npa_bulk` lines 296-325,
`fetch_all_blocks_for_npa_optimized` lines 79-129,
`fetch_nxx_combinations_for_npa` lines 181-240) -/

/-- The page-fetch loop of `fetch_assigned_for_npa_bulk`, driven by a page
oracle keyed by the request offset (every fetch succeeding — failures of
this loop are not caught and simply propagate, see `fetch_nxx_combinations`
for the loops that do catch).  The first argument bounds the number of
iterations; the source's `while True` needs no such bound because its stop
conditions fire, which is exactly what the pagination theorem proves. -/
def fetch_bulk_records (pages : Nat → List RawRecord) (L : Nat) :
    Nat → Nat → List RawRecord
  | 0, _ => []
  | fuel + 1, offset =>
    let data := pages offset
    if data = [] then []
    else if data.length < L then data
    else data ++ fetch_bulk_records pages L fuel (offset + L)

/-- A network-level failure of a page fetch, after the retry client
exhausted its attempts. -/
inductive FetchFailure where
  | networkFailure
deriving DecidableEq, Repr

/-- A record of the legacy step-1 endpoint (`npa,nxx` dimensions). -/
structure NxxRec where
  npa : String
  nxx : String
deriving DecidableEq, Repr

/-- The page loop of `fetch_nxx_combinations_for_npa`, driven by a page
oracle that either yields the page's `data` array or raises.  The source
wraps the whole loop body in `try ... except Exception: print(...); break`
(lines 233-235), so a raising fetch — including the retry client
exhausting its attempts — does NOT propagate: the loop breaks and the
partial key set accumulated so far is returned as if complete. -/
def fetch_nxx_combinations (pages : Nat → Except FetchFailure (List NxxRec)) :
    Nat → Nat → Finset (String × String) → Finset (String × String)
  | 0, _, acc => acc
  | fuel + 1, offset, acc =>
    match pages offset with
    | Except.error _ => acc
    | Except.ok data =>
      if data = [] then acc
      else
        let acc' := acc ∪
          ((data.filter fun r => !(r.npa == "") && !(r.nxx == "")).map fun r =>
            (zfill3 r.npa, zfill3 r.nxx)).toFinset
        if data.length < 1000 then acc' else fetch_nxx_combinations pages fuel (offset + 1000) acc'

/-! ## Fixtures and auxiliary definitions used by the statements -/

/-- The exception corresponding to a failed attempt (the `last_exception`
that `make_api_request_with_retry` re-raises; the `success` case is never
consulted). -/
def attemptErr {α : Type} : AttemptResult α → RetryErr
  | AttemptResult.success _ => RetryErr.jsonErr
  | AttemptResult.urlError code => RetryErr.urlErr code
  | AttemptResult.jsonError => RetryErr.jsonErr

/-- The back-off schedule the code actually follows (the amended policy):
on a rate-limit (HTTP 429) failure the delay is doubled (capped at
`MAX_RETRY_DELAY`) *before* the jittered sleep, and after every non-final
failed attempt the slept delay is additionally multiplied by 1.5 (capped);
a JSON parse failure sleeps the bare delay without jitter. -/
def amendedWaits {α : Type} (resp : Nat → AttemptResult α) (f : Nat → ℚ) :
    Nat → Nat → ℚ → List ℚ
  | 0, _, _ => []
  | fuel + 1, attempt, delay =>
    match resp attempt with
    | AttemptResult.success _ => []
    | AttemptResult.urlError code =>
      if fuel = 0 then []
      else
        let d1 := if code = some 429 then min (delay * 2) MAX_RETRY_DELAY else delay
        (d1 + d1 * f attempt) ::
          amendedWaits resp f fuel (attempt + 1) (min (d1 * (3 / 2)) MAX_RETRY_DELAY)
    | AttemptResult.jsonError =>
      if fuel = 0 then []
      else delay :: amendedWaits resp f fuel (attempt + 1) (min (delay * (3 / 2)) MAX_RETRY_DELAY)

/-- An attempt oracle that is rate-limited (HTTP 429) on every attempt. -/
def resp429 : Nat → AttemptResult Unit := fun _ => AttemptResult.urlError (some 429)

/-- A jitter oracle drawing no jitter at all. -/
def jitterZero : Nat → ℚ := fun _ => 0

/-- A jitter oracle always drawing the maximal admissible jitter (10% of
the current delay). -/
def jitterTenth : Nat → ℚ := fun _ => 1 / 10

/-- A page oracle for the legacy step-1 collector: the first page (offset 0)
is full (1000 records), every later fetch exhausts its retries and raises. -/
def nxxFailedOracle : Nat → Except FetchFailure (List NxxRec) := fun o =>
  if o = 0 then Except.ok (List.replicate 1000 ⟨"201", "555"⟩)
  else Except.error FetchFailure.networkFailure

/-- A registry record whose fields carry a valid (already padded or
paddable) TopLevelKey and SubKey and a block that is numeric or the
catch-all marker. -/
def validRecord (r : RawRecord) : Prop :=
  zfill3 r.npa ∈ npaCodes ∧ zfill3 r.nxx ∈ nxxCodes ∧
    (r.block_id ∈ blockStrs ∨ r.block_id = "A")

instance (r : RawRecord) : Decidable (validRecord r) := by
  unfold validRecord; infer_instance

/-- Recognize a fully qualified (`ByTriple`) condensed entry. -/
def isByTripleEntry : CondensedEntry → Bool
  | CondensedEntry.byTriple _ _ _ => true
  | _ => false

/-- The §8 test fixture: Universe restricted to TopLevelKey "200" and the
two SubKeys "200" and "205". -/
def scenarioUniverse : Finset Triple :=
  ({"200"} : Finset String) ×ˢ ({"200", "205"} : Finset String) ×ˢ blockStrs.toFinset

/-- The §8 test fixture records `[(200,205,'3'), (200,205,'A')]`. -/
def scenarioRecords : List RawRecord :=
  [⟨"200", "205", "3"⟩, ⟨"200", "205", "A"⟩]

/-- The §8 fixture's unassigned set: the restricted universe minus the
resolved assigned set. -/
def scenarioUnassigned : Finset Triple := scenarioUniverse \ assignedOf scenarioRecords

/-! ## Theorems: the resilient fetch client -/

theorem retryAux_attempts_le {α : Type} (resp : Nat → AttemptResult α) (f : Nat → ℚ) :
    ∀ fuel attempt delay, (retryAux resp f fuel attempt delay).attempts ≤ fuel := by
  intro fuel
  induction fuel with
  | zero => intro attempt delay; simp [retryAux]
  | succ n ih =>
    intro attempt delay
    rcases h : resp attempt with a | code | _
    · simp [retryAux, h]
    · by_cases hn : n = 0
      · subst hn; simp [retryAux, h]
      · simp only [retryAux, h, hn, if_false]
        exact Nat.succ_le_succ (ih _ _)
    · by_cases hn : n = 0
      · subst hn; simp [retryAux, h]
      · simp only [retryAux, h, hn, if_false]
        exact Nat.succ_le_succ (ih _ _)

theorem retryAux_outcome_ne_none {α : Type} (resp : Nat → AttemptResult α) (f : Nat → ℚ) :
    ∀ fuel, 1 ≤ fuel → ∀ attempt delay,
      (retryAux resp f fuel attempt delay).outcome ≠ RetryOutcome.returnedNone := by
  intro fuel
  induction fuel with
  | zero => intro h; omega
  | succ n ih =>
    intro _ attempt delay
    rcases h : resp attempt with a | code | _
    · simp [retryAux, h]
    · by_cases hn : n = 0
      · subst hn; simp [retryAux, h]
      · simp only [retryAux, h, hn, if_false]
        exact ih (by omega) _ _
    · by_cases hn : n = 0
      · subst hn; simp [retryAux, h]
      · simp only [retryAux, h, hn, if_false]
        exact ih (by omega) _ _

theorem retryAux_waits_eq_amended {α : Type} (resp : Nat → AttemptResult α) (f : Nat → ℚ) :
    ∀ fuel attempt delay,
      (retryAux resp f fuel attempt delay).waits = amendedWaits resp f fuel attempt delay := by
  intro fuel
  induction fuel with
  | zero => intro attempt delay; simp [retryAux, amendedWaits]
  | succ n ih =>
    intro attempt delay
    rcases h : resp attempt with a | code | _
    · simp [retryAux, amendedWaits, h]
    · by_cases hn : n = 0
      · subst hn; simp [retryAux, amendedWaits, h]
      · simp only [retryAux, amendedWaits, h, hn, if_false]
        rw [ih]
    · by_cases hn : n = 0
      · subst hn; simp [retryAux, amendedWaits, h]
      · simp only [retryAux, amendedWaits, h, hn, if_false]
        rw [ih]

theorem retryAux_waits_bounded {α : Type} (resp : Nat → AttemptResult α) (f : Nat → ℚ)
    (hf : ∀ i, 0 ≤ f i ∧ f i ≤ 1 / 10) :
    ∀ fuel attempt delay, 0 ≤ delay → delay ≤ MAX_RETRY_DELAY →
      ∀ w ∈ (retryAux resp f fuel attempt delay).waits,
        w ≤ MAX_RETRY_DELAY * (1 + 1 / 10) := by
  intro fuel
  induction fuel with
  | zero => intro attempt delay _ _ w hw; simp [retryAux] at hw
  | succ n ih =>
    intro attempt delay h0 h30 w hw
    rcases h : resp attempt with a | code | _
    · simp [retryAux, h] at hw
    · by_cases hn : n = 0
      · subst hn; simp [retryAux, h] at hw
      · simp only [retryAux, h, hn, if_false] at hw
        set d1 : ℚ := if code = some 429 then min (delay * 2) MAX_RETRY_DELAY else delay with hd1
        have hd1nn : 0 ≤ d1 := by
          rw [hd1]; split
          · exact le_min (by linarith) (by norm_num [MAX_RETRY_DELAY])
          · exact h0
        have hd1le : d1 ≤ MAX_RETRY_DELAY := by
          rw [hd1]; split
          · exact min_le_right _ _
          · exact h30
        rcases List.mem_cons.mp hw with hw1 | hw2
        · have hfa := hf attempt
          have : d1 * f attempt ≤ d1 * (1 / 10) :=
            mul_le_mul_of_nonneg_left hfa.2 hd1nn
          have hmax : (0 : ℚ) ≤ MAX_RETRY_DELAY := by norm_num [MAX_RETRY_DELAY]
          rw [hw1]
          nlinarith
        · refine ih (attempt + 1) _ ?_ ?_ w hw2
          · exact le_min (by nlinarith) (by norm_num [MAX_RETRY_DELAY])
          · exact min_le_right _ _
    · by_cases hn : n = 0
      · subst hn; simp [retryAux, h] at hw
      · simp only [retryAux, h, hn, if_false] at hw
        rcases List.mem_cons.mp hw with hw1 | hw2
        · rw [hw1]
          nlinarith [show (0:ℚ) ≤ MAX_RETRY_DELAY * (1 / 10) by norm_num [MAX_RETRY_DELAY]]
        · refine ih (attempt + 1) _ ?_ ?_ w hw2
          · exact le_min (by nlinarith) (by norm_num [MAX_RETRY_DELAY])
          · exact min_le_right _ _

theorem retry_raises_last_error {α : Type} (resp : Nat → AttemptResult α) (f : Nat → ℚ)
    (h : ∀ i, i < MAX_RETRIES → ∀ a, resp i ≠ AttemptResult.success a) :
    (make_api_request_with_retry resp f).outcome = RetryOutcome.raised (attemptErr (resp 2)) := by
  unfold make_api_request_with_retry makeApiRequestWithRetryN MAX_RETRIES INITIAL_RETRY_DELAY
  rcases h0 : resp 0 with a | c0 | _
  · exact absurd h0 (h 0 (by norm_num [MAX_RETRIES]) a)
  all_goals rcases h1 : resp 1 with a | c1 | _
  · exact absurd h1 (h 1 (by norm_num [MAX_RETRIES]) a)
  all_goals try exact absurd h1 (h 1 (by norm_num [MAX_RETRIES]) _)
  all_goals rcases h2 : resp 2 with a | c2 | _
  all_goals try exact absurd h2 (h 2 (by norm_num [MAX_RETRIES]) _)
  all_goals simp [retryAux, h0, h1, h2, attemptErr]

/-- C6 (amended): every call of `make_api_request_with_retry` makes at most
3 attempts; after each failed non-final attempt it waits per the code's
schedule `amendedWaits` — for a rate-limit (HTTP 429) failure the delay is
doubled (capped at 30 s) *before* the jittered wait, and after the wait the
delay additionally grows by the generic factor 1.5 (capped), so one 429
retry grows the delay threefold overall; with jitter at most 10% every wait
is at most 33 s; and after the final failed attempt it raises the last
error instead of returning a value. -/
theorem retry_policy {α : Type} (resp : Nat → AttemptResult α) (f : Nat → ℚ)
    (hf : ∀ i, 0 ≤ f i ∧ f i ≤ 1 / 10) :
    (make_api_request_with_retry resp f).attempts ≤ MAX_RETRIES ∧
    (make_api_request_with_retry resp f).waits =
      amendedWaits resp f MAX_RETRIES 0 INITIAL_RETRY_DELAY ∧
    (∀ w ∈ (make_api_request_with_retry resp f).waits,
      w ≤ MAX_RETRY_DELAY * (1 + 1 / 10)) ∧
    ((∀ i, i < MAX_RETRIES → ∀ a, resp i ≠ AttemptResult.success a) →
      (make_api_request_with_retry resp f).outcome =
        RetryOutcome.raised (attemptErr (resp 2))) := by
  refine ⟨retryAux_attempts_le resp f _ _ _, retryAux_waits_eq_amended resp f _ _ _, ?_, ?_⟩
  · exact retryAux_waits_bounded resp f hf MAX_RETRIES 0 INITIAL_RETRY_DELAY
      (by norm_num [INITIAL_RETRY_DELAY]) (by norm_num [INITIAL_RETRY_DELAY, MAX_RETRY_DELAY])
  · exact retry_raises_last_error resp f

/-- Witness for C6: the amended retry policy, instantiated on an oracle that
is rate-limited on every attempt, with maximal (10%) jitter. -/
theorem retry_policy_witness :
    (∀ i, 0 ≤ jitterTenth i ∧ jitterTenth i ≤ 1 / 10) ∧
    ((make_api_request_with_retry resp429 jitterTenth).attempts ≤ MAX_RETRIES ∧
      (make_api_request_with_retry resp429 jitterTenth).waits =
        amendedWaits resp429 jitterTenth MAX_RETRIES 0 INITIAL_RETRY_DELAY ∧
      (∀ w ∈ (make_api_request_with_retry resp429 jitterTenth).waits,
        w ≤ MAX_RETRY_DELAY * (1 + 1 / 10)) ∧
      ((∀ i, i < MAX_RETRIES → ∀ a, resp429 i ≠ AttemptResult.success a) →
        (make_api_request_with_retry resp429 jitterTenth).outcome =
          RetryOutcome.raised (attemptErr (resp429 2)))) :=
  ⟨fun _ => ⟨by norm_num [jitterTenth], by norm_num [jitterTenth]⟩,
    retry_policy resp429 jitterTenth
      (fun _ => ⟨by norm_num [jitterTenth], by norm_num [jitterTenth]⟩)⟩

/-- Counterexample for C6: on an oracle that fails rate-limited (HTTP 429)
on every attempt, with zero jitter, the code waits 2 s then 6 s — against
the claimed schedule (wait the current delay, then double on 429) which
would wait 1 s then 2 s. -/
theorem retry_schedule_counterexample :
    (make_api_request_with_retry resp429 jitterZero).waits = [2, 6] ∧
    claimedWaits resp429 jitterZero MAX_RETRIES 0 INITIAL_RETRY_DELAY = [1, 2] ∧
    ([2, 6] : List ℚ) ≠ [1, 2] := by
  refine ⟨?_, ?_, by norm_num⟩
  · simp [make_api_request_with_retry, makeApiRequestWithRetryN, retryAux, resp429,
      jitterZero, MAX_RETRIES, INITIAL_RETRY_DELAY, MAX_RETRY_DELAY]
    norm_num [min_def]
  · simp [claimedWaits, resp429, jitterZero, MAX_RETRIES, INITIAL_RETRY_DELAY, MAX_RETRY_DELAY]
    norm_num [min_def]

/-- C10: with at least one attempt configured, `make_api_request_with_retry`
never reaches the `return None` fall-through: it returns a parsed body or
raises the final attempt's exception. -/
theorem retry_never_returns_none {α : Type} (resp : Nat → AttemptResult α) (f : Nat → ℚ)
    (m : Nat) (hm : 1 ≤ m) :
    (makeApiRequestWithRetryN resp f m).outcome ≠ RetryOutcome.returnedNone ∧
    (make_api_request_with_retry resp f).outcome ≠ RetryOutcome.returnedNone :=
  ⟨retryAux_outcome_ne_none resp f m hm 0 INITIAL_RETRY_DELAY,
    retryAux_outcome_ne_none resp f MAX_RETRIES (by norm_num [MAX_RETRIES]) 0 INITIAL_RETRY_DELAY⟩

/-- Witness for C10 at a concrete failing oracle with one configured
attempt. -/
theorem retry_never_returns_none_witness :
    1 ≤ 1 ∧
    ((makeApiRequestWithRetryN resp429 jitterZero 1).outcome ≠ RetryOutcome.returnedNone ∧
      (make_api_request_with_retry resp429 jitterZero).outcome ≠ RetryOutcome.returnedNone) :=
  ⟨Nat.le_refl 1, retry_never_returns_none resp429 jitterZero 1 (Nat.le_refl 1)⟩

/-! ## Theorems: pagination -/

theorem fetch_bulk_records_spec (pages : Nat → List RawRecord) (L k : Nat)
    (hfull : ∀ j, j < k → (pages (j * L)).length = L)
    (hshort : (pages (k * L)).length < L) :
    ∀ fuel i, i ≤ k → k - i < fuel →
      fetch_bulk_records pages L fuel (i * L) =
        (List.range' i (k + 1 - i)).flatMap fun j => pages (j * L) := by
  intro fuel
  induction fuel with
  | zero => intro i _ h; omega
  | succ n ih =>
    intro i hik _
    by_cases hi : i = k
    · subst hi
      have hk1 : i + 1 - i = 0 + 1 := by omega
      rw [hk1, List.range'_succ]
      by_cases hde : pages (i * L) = []
      · simp [fetch_bulk_records, hde]
      · simp [fetch_bulk_records, hde, hshort]
    · have hilt : i < k := by omega
      have hlen := hfull i hilt
      have hL : 0 < L := by omega
      have hne : pages (i * L) ≠ [] := by
        intro h
        rw [h] at hlen
        simp at hlen
        omega
      have hnotshort : ¬ (pages (i * L)).length < L := by omega
      have hrange : k + 1 - i = (k - i) + 1 := by omega
      rw [hrange, List.range'_succ]
      simp only [fetch_bulk_records, if_neg hne, if_neg hnotshort]
      have hstep : i * L + L = (i + 1) * L := by ring
      rw [hstep, ih (i + 1) (by omega) (by omega)]
      have : k + 1 - (i + 1) = k - i := by omega
      rw [this, List.flatMap_cons]

/-- C7: for a page source that eventually returns a short or empty page,
the bulk collection loop requests offsets 0, L, 2L, … (L the maximum page
size), stops exactly at the first short-or-empty page, terminates (the
result is independent of any sufficiently large iteration bound), and
returns the concatenation of all fetched pages. -/
theorem bulk_pagination (pages : Nat → List RawRecord) (k fuel : Nat)
    (hfull : ∀ j, j < k → (pages (j * MAX_LIMIT_PER_REQUEST)).length = MAX_LIMIT_PER_REQUEST)
    (hshort : (pages (k * MAX_LIMIT_PER_REQUEST)).length < MAX_LIMIT_PER_REQUEST)
    (hfuel : k < fuel) :
    fetch_bulk_records pages MAX_LIMIT_PER_REQUEST fuel 0 =
      (List.range (k + 1)).flatMap fun j => pages (j * MAX_LIMIT_PER_REQUEST) := by
  have h0 := fetch_bulk_records_spec pages MAX_LIMIT_PER_REQUEST k hfull hshort fuel 0
    (Nat.zero_le k) (by omega)
  rw [Nat.zero_mul] at h0
  rw [h0, List.range_eq_range']
  simp

/-- Witness for C7: a page source whose very first page is empty; the loop
stops immediately and returns that single (empty) page's contents. -/
theorem bulk_pagination_witness :
    (([] : List RawRecord)).length < MAX_LIMIT_PER_REQUEST ∧
    fetch_bulk_records (fun _ => []) MAX_LIMIT_PER_REQUEST 1 0 =
      (List.range (0 + 1)).flatMap fun _ => ([] : List RawRecord) :=
  ⟨by norm_num [MAX_LIMIT_PER_REQUEST],
    bulk_pagination (fun _ => []) 0 1 (fun j hj => absurd hj (Nat.not_lt_zero j))
      (by norm_num [MAX_LIMIT_PER_REQUEST]) Nat.zero_lt_one⟩

/-- C3 (code bug): the legacy step-1 collector swallows fetch failures.
On a page oracle whose first page is full and whose second fetch exhausts
its retries and raises, `fetch_nxx_combinations_for_npa` catches the
exception, breaks out of the loop, and returns the partial key set
`{(201, 555)}` as if it were complete; on an oracle whose very first fetch
raises it likewise returns the empty ledger.  The spec requires the error
to propagate and the collector to fail instead. -/
theorem fetch_nxx_swallow_general (r : NxxRec) (pages : Nat → Except FetchFailure (List NxxRec))
    (hr : (!(r.npa == "") && !(r.nxx == "")) = true)
    (h0 : pages 0 = Except.ok (List.replicate 1000 r))
    (h1 : pages 1000 = Except.error FetchFailure.networkFailure) :
    fetch_nxx_combinations pages 5 0 ∅ = {(zfill3 r.npa, zfill3 r.nxx)} := by
  have hne : List.replicate 1000 r ≠ [] :=
    List.ne_nil_of_length_pos (by rw [List.length_replicate]; norm_num)
  have hfil := List.filter_replicate_of_pos (p := fun s => !(s.npa == "") && !(s.nxx == ""))
    (a := r) (n := 1000) hr
  rw [fetch_nxx_combinations]
  simp only [h0]
  rw [if_neg hne]
  simp only [List.length_replicate, hfil, List.map_replicate, Finset.empty_union,
    List.toFinset_replicate_of_ne_zero (show (1000 : Nat) ≠ 0 by norm_num), Nat.zero_add]
  rw [if_neg (show ¬ ((1000 : Nat) < 1000) by omega)]
  rw [fetch_nxx_combinations]
  simp only [h1]

theorem nxx_collector_swallows_failure :
    fetch_nxx_combinations nxxFailedOracle 5 0 ∅ = {("201", "555")} ∧
    fetch_nxx_combinations (fun _ => Except.error FetchFailure.networkFailure) 5 0 ∅ = ∅ := by
  constructor
  · have h := fetch_nxx_swallow_general ⟨"201", "555"⟩ nxxFailedOracle (by decide) rfl rfl
    rw [h]
    decide
  · decide

/-! ## Theorems: the assignment resolver -/

theorem zfill3_length (s : String) : 3 ≤ (zfill3 s).length := by
  unfold zfill3
  split
  · assumption
  · rw [String.length_append, String.length_mk, List.length_replicate]
    omega

theorem zfill3_ne_empty (s : String) : zfill3 s ≠ "" := by
  intro h
  have h3 := zfill3_length s
  rw [h] at h3
  have h0 : ("" : String).length = 0 := rfl
  omega

theorem recOK_eq (r : RawRecord) : recOK r = !(r.block_id == "") := by
  unfold recOK
  rw [beq_eq_false_iff_ne.mpr (zfill3_ne_empty r.npa),
    beq_eq_false_iff_ne.mpr (zfill3_ne_empty r.nxx)]
  simp

theorem exists_of_bulkHasA {records : List RawRecord} {k : String × String}
    (h : bulkHasA records k = true) :
    ∃ r ∈ records, recKey r = k ∧ r.block_id = "A" := by
  rw [bulkHasA, List.any_eq_true] at h
  obtain ⟨r, hr, hc⟩ := h
  rw [List.mem_filter] at hr
  rw [Bool.and_eq_true, beq_iff_eq, beq_iff_eq] at hc
  exact ⟨r, hr.1, hc.1, hc.2⟩

theorem bulkHasA_of_record {records : List RawRecord} {k : String × String} {r : RawRecord}
    (hr : r ∈ records) (hk : recKey r = k) (hA : r.block_id = "A") :
    bulkHasA records k = true := by
  rw [bulkHasA, List.any_eq_true]
  refine ⟨r, ?_, ?_⟩
  · rw [List.mem_filter, recOK_eq]
    exact ⟨hr, by simp [hA]⟩
  · simp [hk, hA]

theorem exists_of_mem_bulkNumeric {records : List RawRecord} {k : String × String} {b : String}
    (h : b ∈ bulkNumeric records k) :
    ∃ r ∈ records, recKey r = k ∧ r.block_id = b ∧ r.block_id ≠ "A" ∧ r.block_id ≠ "" := by
  rw [bulkNumeric, List.mem_toFinset, List.mem_map] at h
  obtain ⟨r, hr, hrb⟩ := h
  rw [List.mem_filter] at hr
  obtain ⟨hr1, hr2⟩ := hr
  rw [List.mem_filter] at hr1
  rw [Bool.and_eq_true, beq_iff_eq] at hr2
  have hbne : r.block_id ≠ "A" := by
    have h2 := hr2.2
    rw [Bool.not_eq_eq_eq_not, Bool.not_true, beq_eq_false_iff_ne] at h2
    exact h2
  have hb0 : r.block_id ≠ "" := by
    have h1 := hr1.2
    rw [recOK_eq, Bool.not_eq_eq_eq_not, Bool.not_true, beq_eq_false_iff_ne] at h1
    exact h1
  exact ⟨r, hr1.1, hr2.1, hrb, hbne, hb0⟩

theorem mem_bulkNumeric_of_record {records : List RawRecord} {k : String × String} {r : RawRecord}
    (hr : r ∈ records) (hk : recKey r = k) (hA : r.block_id ≠ "A") (h0 : r.block_id ≠ "") :
    r.block_id ∈ bulkNumeric records k := by
  rw [bulkNumeric, List.mem_toFinset, List.mem_map]
  refine ⟨r, ?_, rfl⟩
  rw [List.mem_filter, List.mem_filter, recOK_eq]
  exact ⟨⟨hr, by simp [h0]⟩, by simp [hk, hA]⟩

theorem mem_bulkKeys_of_bulkHasA {records : List RawRecord} {k : String × String}
    (h : bulkHasA records k = true) : k ∈ bulkKeys records := by
  rw [bulkHasA, List.any_eq_true] at h
  obtain ⟨r, hr, hc⟩ := h
  rw [Bool.and_eq_true, beq_iff_eq] at hc
  rw [bulkKeys, List.mem_toFinset, List.mem_map]
  exact ⟨r, hr, hc.1⟩

theorem mem_bulkKeys_of_mem_bulkNumeric {records : List RawRecord} {k : String × String}
    {b : String} (h : b ∈ bulkNumeric records k) : k ∈ bulkKeys records := by
  rw [bulkNumeric, List.mem_toFinset, List.mem_map] at h
  obtain ⟨r, hr, _⟩ := h
  rw [List.mem_filter] at hr
  obtain ⟨hr1, hr2⟩ := hr
  rw [Bool.and_eq_true, beq_iff_eq] at hr2
  rw [bulkKeys, List.mem_toFinset, List.mem_map]
  exact ⟨r, hr1, hr2.1⟩

theorem mem_assignedOf {records : List RawRecord} {t : Triple} :
    t ∈ assignedOf records ↔
      ((bulkHasA records (t.1, t.2.1) = true ∧ bulkNumeric records (t.1, t.2.1) = ∅ ∧
          t.2.2 ∈ blockStrs.toFinset) ∨
        t.2.2 ∈ bulkNumeric records (t.1, t.2.1)) := by
  obtain ⟨a, x, b⟩ := t
  constructor
  · intro ht
    rw [assignedOf, Finset.mem_biUnion] at ht
    obtain ⟨k, hk, hmem⟩ := ht
    by_cases hcond : (bulkHasA records k && (bulkNumeric records k).card == 0) = true
    · rw [if_pos hcond] at hmem
      rw [Finset.mem_image] at hmem
      obtain ⟨b', hb', heq⟩ := hmem
      obtain ⟨k1, k2⟩ := k
      simp only [Prod.mk.injEq] at heq
      obtain ⟨h1, h2, h3⟩ := heq
      subst h1; subst h2; subst h3
      rw [Bool.and_eq_true, beq_iff_eq, Finset.card_eq_zero] at hcond
      exact Or.inl ⟨hcond.1, hcond.2, hb'⟩
    · rw [if_neg hcond] at hmem
      rw [Finset.mem_image] at hmem
      obtain ⟨b', hb', heq⟩ := hmem
      obtain ⟨k1, k2⟩ := k
      simp only [Prod.mk.injEq] at heq
      obtain ⟨h1, h2, h3⟩ := heq
      subst h1; subst h2; subst h3
      exact Or.inr hb'
  · intro h
    rcases h with ⟨hA, hnum, hb⟩ | hb
    · rw [assignedOf, Finset.mem_biUnion]
      refine ⟨(a, x), mem_bulkKeys_of_bulkHasA hA, ?_⟩
      rw [if_pos (by rw [hA, hnum]; simp)]
      rw [Finset.mem_image]
      exact ⟨b, hb, rfl⟩
    · rw [assignedOf, Finset.mem_biUnion]
      refine ⟨(a, x), mem_bulkKeys_of_mem_bulkNumeric hb, ?_⟩
      have hcond : (bulkHasA records (a, x) && (bulkNumeric records (a, x)).card == 0) ≠ true := by
        intro hc
        rw [Bool.and_eq_true, beq_iff_eq, Finset.card_eq_zero] at hc
        rw [hc.2] at hb
        exact absurd hb (Finset.not_mem_empty b)
      rw [if_neg hcond]
      rw [Finset.mem_image]
      exact ⟨b, hb, rfl⟩

/-- C2: the catch-all inference rule.  For a CompositeKey whose records
carry only the catch-all marker "A", the resolver assigns exactly the ten
numeric blocks 0-9; for a CompositeKey whose records carry the catch-all
marker and at least one numeric block, it assigns exactly the numeric
blocks explicitly present — the catch-all contributes nothing. -/
theorem inference_rule (records : List RawRecord) (a x : String) :
    ((∃ r ∈ records, recKey r = (a, x) ∧ r.block_id = "A") →
      (∀ r ∈ records, recKey r = (a, x) → r.block_id = "A") →
      keyAssigned records a x = blockStrs.toFinset.image fun b => (a, x, b)) ∧
    ((∃ r ∈ records, recKey r = (a, x) ∧ r.block_id = "A") →
      (∃ r ∈ records, recKey r = (a, x) ∧ r.block_id ≠ "A" ∧ r.block_id ≠ "") →
      keyAssigned records a x = (bulkNumeric records (a, x)).image fun b => (a, x, b)) := by
  constructor
  · intro hA hOnly
    obtain ⟨rA, hrA, hkA, hbA⟩ := hA
    have hA' : bulkHasA records (a, x) = true := bulkHasA_of_record hrA hkA hbA
    have hnum : bulkNumeric records (a, x) = ∅ := by
      rw [Finset.eq_empty_iff_forall_not_mem]
      intro b hb
      obtain ⟨r, hr, hk, _, hne, _⟩ := exists_of_mem_bulkNumeric hb
      exact hne (hOnly r hr hk)
    ext t
    obtain ⟨p, q, c⟩ := t
    rw [keyAssigned, Finset.mem_filter, mem_assignedOf]
    constructor
    · rintro ⟨hmem, hp, hq⟩
      dsimp only at hp hq
      subst hp; subst hq
      rcases hmem with ⟨_, _, hb⟩ | hb
      · rw [Finset.mem_image]
        exact ⟨c, hb, rfl⟩
      · rw [hnum] at hb
        exact absurd hb (Finset.not_mem_empty c)
    · intro hmem
      rw [Finset.mem_image] at hmem
      obtain ⟨b, hb, heq⟩ := hmem
      simp only [Prod.mk.injEq] at heq
      obtain ⟨e1, e2, e3⟩ := heq
      subst e1; subst e2; subst e3
      exact ⟨Or.inl ⟨hA', hnum, hb⟩, rfl, rfl⟩
  · intro hA hN
    obtain ⟨rN, hrN, hkN, hbANe, hb0⟩ := hN
    have hbmem : rN.block_id ∈ bulkNumeric records (a, x) :=
      mem_bulkNumeric_of_record hrN hkN hbANe hb0
    ext t
    obtain ⟨p, q, c⟩ := t
    rw [keyAssigned, Finset.mem_filter, mem_assignedOf]
    constructor
    · rintro ⟨hmem, hp, hq⟩
      dsimp only at hp hq
      subst hp; subst hq
      rcases hmem with ⟨_, hnum, _⟩ | hb
      · rw [hnum] at hbmem
        exact absurd hbmem (Finset.not_mem_empty _)
      · rw [Finset.mem_image]
        exact ⟨c, hb, rfl⟩
    · intro hmem
      rw [Finset.mem_image] at hmem
      obtain ⟨b, hb, heq⟩ := hmem
      simp only [Prod.mk.injEq] at heq
      obtain ⟨e1, e2, e3⟩ := heq
      subst e1; subst e2; subst e3
      exact ⟨Or.inr hb, rfl, rfl⟩

/-- Witness for C2: on the records [(200,200,'A'), (200,205,'3'),
(200,205,'A')], key 200-200 (catch-all only) resolves to all ten blocks and
key 200-205 (mixed) resolves to its explicit numeric blocks only. -/
theorem inference_rule_witness :
    keyAssigned [⟨"200", "200", "A"⟩, ⟨"200", "205", "3"⟩, ⟨"200", "205", "A"⟩] "200" "200" =
      blockStrs.toFinset.image (fun b => ("200", "200", b)) ∧
    keyAssigned [⟨"200", "200", "A"⟩, ⟨"200", "205", "3"⟩, ⟨"200", "205", "A"⟩] "200" "205" =
      (bulkNumeric [⟨"200", "200", "A"⟩, ⟨"200", "205", "3"⟩, ⟨"200", "205", "A"⟩]
        ("200", "205")).image (fun b => ("200", "205", b)) :=
  ⟨(inference_rule [⟨"200", "200", "A"⟩, ⟨"200", "205", "3"⟩, ⟨"200", "205", "A"⟩]
      "200" "200").1 (by decide) (by decide),
    (inference_rule [⟨"200", "200", "A"⟩, ⟨"200", "205", "3"⟩, ⟨"200", "205", "A"⟩]
      "200" "205").2 (by decide) (by decide)⟩

/-- Counterexample for C4: on the raw record (200, 200, 'B') — a block
identifier that is neither numeric nor the catch-all marker — the resolver
emits the triple (200, 200, B), which lies outside the Universe; the
resolver performs no validation, so for arbitrary registry input the
AssignedSet is not a subset of the Universe. -/
theorem universeFinset_eq :
    universeFinset = npaCodes.toFinset ×ˢ nxxCodes.toFinset ×ˢ blockStrs.toFinset := by
  delta universeFinset
  rfl

theorem mem_universeFinset {t : Triple} : t ∈ universeFinset ↔ validTriple t := by
  rw [universeFinset_eq, validTriple, Finset.mem_product, Finset.mem_product,
    List.mem_toFinset, List.mem_toFinset, List.mem_toFinset]

set_option maxRecDepth 4000 in
theorem invariant_counterexample :
    ¬ (assignedOf [⟨"200", "200", "B"⟩] ⊆ universeFinset) := by
  intro h
  have h1 : (("200", "200", "B") : Triple) ∈ assignedOf [⟨"200", "200", "B"⟩] := by decide
  have h2 := mem_universeFinset.mp (h h1)
  exact absurd h2.2.2 (by decide)

/-- C4 (amended): for registry input whose records carry a valid
TopLevelKey, a valid SubKey (after zero-padding) and a block that is
numeric 0-9 or the catch-all marker, the resolved AssignedSet is a subset
of the Universe; and the UnassignedSet (Universe minus AssignedSet) is
disjoint from the AssignedSet unconditionally. -/
theorem assigned_subset_universe (records : List RawRecord)
    (h : ∀ r ∈ records, validRecord r) :
    assignedOf records ⊆ universeFinset ∧
    (universeFinset \ assignedOf records) ∩ assignedOf records = ∅ := by
  constructor
  · intro t ht
    rw [mem_assignedOf] at ht
    rw [mem_universeFinset, validTriple]
    rcases ht with ⟨hA, _, hb⟩ | hb
    · obtain ⟨r, hr, hk, _⟩ := exists_of_bulkHasA hA
      have hv := h r hr
      rw [recKey, Prod.mk.injEq] at hk
      rw [List.mem_toFinset] at hb
      exact ⟨hk.1 ▸ hv.1, hk.2 ▸ hv.2.1, hb⟩
    · obtain ⟨r, hr, hk, hbeq, hbA, _⟩ := exists_of_mem_bulkNumeric hb
      have hv := h r hr
      rw [recKey, Prod.mk.injEq] at hk
      have hblock : t.2.2 ∈ blockStrs := by
        rcases hv.2.2 with hmem | hAeq
        · exact hbeq ▸ hmem
        · exact absurd hAeq hbA
      exact ⟨hk.1 ▸ hv.1, hk.2 ▸ hv.2.1, hblock⟩
  · exact Finset.sdiff_inter_self _ _

/-- Witness for C4 at a concrete valid record list. -/
theorem assigned_subset_universe_witness :
    (∀ r ∈ [(⟨"200", "205", "A"⟩ : RawRecord)], validRecord r) ∧
    (assignedOf [⟨"200", "205", "A"⟩] ⊆ universeFinset ∧
      (universeFinset \ assignedOf [⟨"200", "205", "A"⟩]) ∩
        assignedOf [⟨"200", "205", "A"⟩] = ∅) :=
  ⟨by decide, assigned_subset_universe [⟨"200", "205", "A"⟩] (by decide)⟩

theorem legacyNumeric_eq_bulkNumeric (records : List RawRecord) (k : String × String) :
    legacyNumeric records k = bulkNumeric records k := by
  unfold legacyNumeric bulkNumeric
  rw [List.filter_filter]
  congr 1
  apply congrArg
  apply List.filter_congr
  intro r _
  rw [recOK_eq]
  cases recKey r == k <;> cases r.block_id == "" <;> cases r.block_id == "A" <;> rfl

theorem legacyHasA_eq_bulkHasA (records : List RawRecord) (k : String × String) :
    legacyHasA records k = bulkHasA records k := by
  unfold legacyHasA bulkHasA
  rw [Bool.eq_iff_iff]
  simp only [List.any_eq_true, List.mem_filter, Bool.and_eq_true, beq_iff_eq]
  constructor
  · rintro ⟨r, hr, hk, hA⟩
    refine ⟨r, ⟨hr, ?_⟩, hk, hA⟩
    rw [recOK_eq, hA]
    rfl
  · rintro ⟨r, ⟨hr, _⟩, hk, hA⟩
    exact ⟨r, hr, hk, hA⟩

theorem mem_legacyStep1Keys_of_record {records : List RawRecord} {k : String × String}
    {r : RawRecord} (hr : r ∈ records) (hk : recKey r = k)
    (h1 : r.npa ≠ "") (h2 : r.nxx ≠ "") : k ∈ legacyStep1Keys records := by
  unfold legacyStep1Keys
  rw [List.mem_toFinset, List.mem_map]
  refine ⟨r, ?_, hk⟩
  rw [List.mem_filter]
  exact ⟨hr, by simp [h1, h2]⟩

theorem mem_legacyAssigned {records : List RawRecord} {t : Triple} :
    t ∈ legacyAssigned records ↔
      (((t.1, t.2.1) ∈ legacyStep1Keys records ∧
          t.2.2 ∈ legacyNumeric records (t.1, t.2.1)) ∨
        ((t.1, t.2.1) ∈ legacyStep1Keys records ∧
          legacyHasA records (t.1, t.2.1) = true ∧
          legacyNumeric records (t.1, t.2.1) = ∅ ∧ t.2.2 ∈ blockStrs.toFinset)) := by
  obtain ⟨a, x, b⟩ := t
  unfold legacyAssigned
  rw [Finset.mem_union, Finset.mem_biUnion, Finset.mem_biUnion]
  constructor
  · rintro (⟨k, hk, hmem⟩ | ⟨k, hk, hmem⟩)
    · rw [Finset.mem_image] at hmem
      obtain ⟨b', hb', heq⟩ := hmem
      obtain ⟨k1, k2⟩ := k
      simp only [Prod.mk.injEq] at heq
      obtain ⟨e1, e2, e3⟩ := heq
      subst e1; subst e2; subst e3
      exact Or.inl ⟨hk, hb'⟩
    · rw [Finset.mem_filter] at hk
      obtain ⟨hk1, hk2⟩ := hk
      rw [Finset.mem_image] at hmem
      obtain ⟨b', hb', heq⟩ := hmem
      obtain ⟨k1, k2⟩ := k
      simp only [Prod.mk.injEq] at heq
      obtain ⟨e1, e2, e3⟩ := heq
      subst e1; subst e2; subst e3
      rw [Bool.and_eq_true, beq_iff_eq, Finset.card_eq_zero] at hk2
      exact Or.inr ⟨hk1, hk2.1, hk2.2, hb'⟩
  · rintro (⟨hk, hb⟩ | ⟨hk, hA, hnum, hb⟩)
    · refine Or.inl ⟨(a, x), hk, ?_⟩
      rw [Finset.mem_image]
      exact ⟨b, hb, rfl⟩
    · refine Or.inr ⟨(a, x), ?_, ?_⟩
      · rw [Finset.mem_filter]
        exact ⟨hk, by rw [hA, hnum]; simp⟩
      · rw [Finset.mem_image]
        exact ⟨b, hb, rfl⟩

/-- C9: with the same ledger of raw assignment records observed by both
strategies (every fetch succeeding, and every record carrying truthy `npa`
and `nxx` fields, so that legacy step 1 discovers every key), the legacy
two-step collector and the bulk collector resolve equal AssignedSets. -/
theorem strategy_equivalence (records : List RawRecord)
    (h : ∀ r ∈ records, r.npa ≠ "" ∧ r.nxx ≠ "") :
    legacyAssigned records = assignedOf records := by
  ext t
  rw [mem_legacyAssigned, mem_assignedOf]
  simp only [legacyNumeric_eq_bulkNumeric, legacyHasA_eq_bulkHasA]
  constructor
  · rintro (⟨_, hb⟩ | ⟨_, hA, hnum, hb⟩)
    · exact Or.inr hb
    · exact Or.inl ⟨hA, hnum, hb⟩
  · rintro (⟨hA, hnum, hb⟩ | hb)
    · obtain ⟨r, hr, hk, _⟩ := exists_of_bulkHasA hA
      exact Or.inr
        ⟨mem_legacyStep1Keys_of_record hr hk (h r hr).1 (h r hr).2, hA, hnum, hb⟩
    · obtain ⟨r, hr, hk, _, _, _⟩ := exists_of_mem_bulkNumeric hb
      exact Or.inl ⟨mem_legacyStep1Keys_of_record hr hk (h r hr).1 (h r hr).2, hb⟩

/-- Witness for C9 at a concrete ledger exercising both a numeric key and a
catch-all-only key. -/
theorem strategy_equivalence_witness :
    (∀ r ∈ [(⟨"201", "555", "0"⟩ : RawRecord), ⟨"201", "556", "A"⟩],
      r.npa ≠ "" ∧ r.nxx ≠ "") ∧
    legacyAssigned [⟨"201", "555", "0"⟩, ⟨"201", "556", "A"⟩] =
      assignedOf [⟨"201", "555", "0"⟩, ⟨"201", "556", "A"⟩] :=
  ⟨by decide, strategy_equivalence [⟨"201", "555", "0"⟩, ⟨"201", "556", "A"⟩] (by decide)⟩

/-! ## Theorems: the range condenser -/

theorem sortFinset_coe (s : Finset String) :
    ((sortFinset s : List String) : Multiset String) = s.val := by
  rw [sortFinset]
  induction s.val using Quot.inductionOn with
  | h l => exact Multiset.coe_eq_coe.mpr (List.perm_insertionSort _ l)

theorem sortFinset_sorted_pyLe (s : Finset String) : List.Sorted pyLe (sortFinset s) := by
  rw [sortFinset]
  induction s.val using Quot.inductionOn with
  | h l => exact List.sorted_insertionSort _ l

theorem sortFinset_eq_sort (s : Finset String) : sortFinset s = s.sort pyLe :=
  List.eq_of_perm_of_sorted
    (Multiset.coe_eq_coe.mp ((sortFinset_coe s).trans (Finset.sort_eq _ _).symm))
    (sortFinset_sorted_pyLe s) (Finset.sort_sorted _ _)

theorem expandEntries_nil : expandEntries [] = 0 := rfl

theorem expandEntries_cons (e : CondensedEntry) (l : List CondensedEntry) :
    expandEntries (e :: l) = (expandEntry e).val + expandEntries l := by
  unfold expandEntries
  rw [List.map_cons, List.sum_cons]

theorem expandEntries_singleton (e : CondensedEntry) :
    expandEntries [e] = (expandEntry e).val := by
  rw [expandEntries_cons, expandEntries_nil, add_zero]

theorem expandEntries_append (l1 l2 : List CondensedEntry) :
    expandEntries (l1 ++ l2) = expandEntries l1 + expandEntries l2 := by
  unfold expandEntries
  rw [List.map_append, List.sum_append]

theorem expandEntries_flatMap {α : Type} (l : List α) (g : α → List CondensedEntry) :
    expandEntries (l.flatMap g) = (l.map fun a => expandEntries (g a)).sum := by
  induction l with
  | nil => rfl
  | cons a l ih =>
    rw [List.flatMap_cons, expandEntries_append, ih, List.map_cons, List.sum_cons]

theorem expandEntries_map_byTriple (a x : String) (l : List String) :
    expandEntries (l.map (CondensedEntry.byTriple a x)) =
      ((l.map fun b => (a, x, b) : List Triple) : Multiset Triple) := by
  induction l with
  | nil => rfl
  | cons b l ih =>
    rw [List.map_cons, expandEntries_cons, ih, List.map_cons, ← Multiset.cons_coe]
    show ({(a, x, b)} : Finset Triple).val + _ = _
    rw [Finset.singleton_val, Multiset.singleton_add]

theorem sum_singletons {T : Type} [DecidableEq T] (u : Finset T) :
    (∑ t ∈ u, ({t} : Multiset T)) = u.val := by
  induction u using Finset.induction_on with
  | empty => rfl
  | @insert a s ha ih =>
    rw [Finset.sum_insert ha, ih, Finset.insert_val_of_not_mem ha, Multiset.singleton_add]

theorem fiber_partition {T : Type} [DecidableEq T] (s : Finset T) (f : T → String) :
    (((s.image f).sort pyLe).map fun k => (s.filter fun t => f t = k).val).sum = s.val := by
  have h1 : (((s.image f).sort pyLe).map fun k => (s.filter fun t => f t = k).val).sum
      = ∑ k ∈ s.image f, (s.filter fun t => f t = k).val := by
    calc (((s.image f).sort pyLe).map fun k => (s.filter fun t => f t = k).val).sum
        = ((((s.image f).sort pyLe).map fun k => (s.filter fun t => f t = k).val :
            List (Multiset T)) : Multiset (Multiset T)).sum := (Multiset.sum_coe _).symm
      _ = (((s.image f).val).map fun k => (s.filter fun t => f t = k).val).sum := by
          rw [← Multiset.map_coe, Finset.sort_eq]
      _ = ∑ k ∈ s.image f, (s.filter fun t => f t = k).val :=
          (Finset.sum_eq_multiset_sum _ _).symm
  rw [h1]
  calc ∑ k ∈ s.image f, (s.filter fun t => f t = k).val
      = ∑ k ∈ s.image f, ∑ t ∈ s.filter fun t => f t = k, ({t} : Multiset T) :=
        Finset.sum_congr rfl fun k _ => (sum_singletons _).symm
    _ = ∑ t ∈ s, ({t} : Multiset T) :=
        Finset.sum_fiberwise_of_maps_to (fun t ht => Finset.mem_image_of_mem f ht) _
    _ = s.val := sum_singletons s

theorem blocksOf_subset {U : Finset Triple} (hU : ∀ t ∈ U, validTriple t) (a x : String) :
    blocksOf U a x ⊆ blockStrs.toFinset := by
  intro b hb
  rw [blocksOf, Finset.mem_image] at hb
  obtain ⟨t, ht, hbt⟩ := hb
  rw [Finset.mem_filter] at ht
  rw [List.mem_toFinset]
  exact hbt ▸ (hU t ht.1).2.2

theorem mem_of_mem_blocksOf {U : Finset Triple} {a x b : String}
    (hb : b ∈ blocksOf U a x) : (a, x, b) ∈ U := by
  rw [blocksOf, Finset.mem_image] at hb
  obtain ⟨t, ht, hbt⟩ := hb
  rw [Finset.mem_filter] at ht
  obtain ⟨htU, ht1, ht2⟩ := ht
  obtain ⟨p, q, c⟩ := t
  dsimp only at ht1 ht2 hbt
  subst ht1; subst ht2; subst hbt
  exact htU

theorem condensePerNxx_expand (U : Finset Triple) (hU : ∀ t ∈ U, validTriple t)
    (a x : String) :
    expandEntries (condensePerNxx U a x) = (U.filter fun t => t.1 = a ∧ t.2.1 = x).val := by
  have htri : expandEntries
        ((sortFinset (blocksOf U a x)).map (CondensedEntry.byTriple a x))
      = (U.filter fun t => t.1 = a ∧ t.2.1 = x).val := by
    rw [sortFinset_eq_sort, expandEntries_map_byTriple]
    have hinj : Set.InjOn (fun t : Triple => t.2.2)
        (U.filter fun t => t.1 = a ∧ t.2.1 = x) := by
      intro t1 h1 t2 h2 he
      rw [Finset.mem_coe, Finset.mem_filter] at h1 h2
      obtain ⟨p1, q1, c1⟩ := t1
      obtain ⟨p2, q2, c2⟩ := t2
      obtain ⟨-, e11, e12⟩ := h1
      obtain ⟨-, e21, e22⟩ := h2
      dsimp only at e11 e12 e21 e22 he
      subst e11; subst e12; subst e21; subst e22; subst he
      rfl
    have hval : (blocksOf U a x).val =
        (U.filter fun t => t.1 = a ∧ t.2.1 = x).val.map fun t => t.2.2 := by
      rw [blocksOf]
      exact Finset.image_val_of_injOn hinj
    calc ((((blocksOf U a x).sort pyLe).map fun b => (a, x, b) : List Triple) :
            Multiset Triple)
        = ((blocksOf U a x).val.map fun b => (a, x, b)) := by
          rw [← Multiset.map_coe, Finset.sort_eq]
      _ = ((U.filter fun t => t.1 = a ∧ t.2.1 = x).val.map fun t => t.2.2).map
            (fun b => (a, x, b)) := by rw [hval]
      _ = (U.filter fun t => t.1 = a ∧ t.2.1 = x).val.map fun t => (a, x, t.2.2) :=
          Multiset.map_map _ _ _
      _ = (U.filter fun t => t.1 = a ∧ t.2.1 = x).val.map id := by
          refine Multiset.map_congr rfl fun t ht => ?_
          rw [← Finset.mem_def, Finset.mem_filter] at ht
          obtain ⟨-, h1, h2⟩ := ht
          rw [← h1, ← h2]
          rfl
      _ = (U.filter fun t => t.1 = a ∧ t.2.1 = x).val := Multiset.map_id _
  unfold condensePerNxx
  by_cases h10 : ((blocksOf U a x).card == 10) = true
  · rw [if_pos h10]
    by_cases hall : ((List.range 10).all fun b => decide (toString b ∈ blocksOf U a x)) = true
    · rw [if_pos hall]
      rw [expandEntries_singleton]
      show (({a} : Finset String) ×ˢ ({x} : Finset String) ×ˢ blockStrs.toFinset).val = _
      refine congrArg Finset.val ?_
      ext t
      obtain ⟨p, q, c⟩ := t
      rw [Finset.mem_product, Finset.mem_product, Finset.mem_filter]
      simp only [Finset.mem_singleton]
      constructor
      · rintro ⟨hp, hq, hc⟩
        subst hp; subst hq
        rw [List.mem_toFinset, blockStrs, List.mem_map] at hc
        obtain ⟨d, hd, hdc⟩ := hc
        rw [List.all_eq_true] at hall
        have := hall d hd
        rw [decide_eq_true_eq] at this
        rw [← hdc]
        exact ⟨mem_of_mem_blocksOf this, rfl, rfl⟩
      · rintro ⟨htU, h1, h2⟩
        subst h1; subst h2
        refine ⟨rfl, rfl, ?_⟩
        rw [List.mem_toFinset]
        exact (hU _ htU).2.2
    · rw [if_neg hall]
      exact htri
  · rw [if_neg h10]
    exact htri

theorem condensePerNpa_expand (U : Finset Triple) (hU : ∀ t ∈ U, validTriple t)
    (a : String) :
    expandEntries (condensePerNpa U a) = (U.filter fun t => t.1 = a).val := by
  unfold condensePerNpa
  by_cases hcond : (allNxxUnassigned U a && ((nxxsOf U a).card == nxxCodes.length)) = true
  · rw [if_pos hcond]
    rw [Bool.and_eq_true] at hcond
    have hall := hcond.1
    rw [allNxxUnassigned, List.all_eq_true] at hall
    rw [expandEntries_singleton]
    show (({a} : Finset String) ×ˢ nxxCodes.toFinset ×ˢ blockStrs.toFinset).val = _
    refine congrArg Finset.val ?_
    ext t
    obtain ⟨p, q, c⟩ := t
    rw [Finset.mem_product, Finset.mem_product, Finset.mem_filter]
    simp only [Finset.mem_singleton]
    constructor
    · rintro ⟨hp, hq, hc⟩
      subst hp
      rw [List.mem_toFinset] at hq
      have hq' := hall q hq
      rw [Bool.and_eq_true, Bool.and_eq_true] at hq'
      have hdigits := hq'.2
      rw [List.all_eq_true] at hdigits
      rw [List.mem_toFinset, blockStrs, List.mem_map] at hc
      obtain ⟨d, hd, hdc⟩ := hc
      have := hdigits d hd
      rw [decide_eq_true_eq] at this
      rw [← hdc]
      exact ⟨mem_of_mem_blocksOf this, rfl⟩
    · rintro ⟨htU, h1⟩
      subst h1
      have hv := hU _ htU
      exact ⟨rfl, List.mem_toFinset.mpr hv.2.1, List.mem_toFinset.mpr hv.2.2⟩
  · rw [if_neg hcond]
    rw [sortFinset_eq_sort, expandEntries_flatMap]
    have hx : ∀ x, expandEntries (condensePerNxx U a x) =
        ((U.filter fun t => t.1 = a).filter fun t => t.2.1 = x).val := by
      intro x
      rw [condensePerNxx_expand U hU a x, Finset.filter_filter]
    simp only [hx]
    have hn : nxxsOf U a = (U.filter fun t => t.1 = a).image fun t => t.2.1 := rfl
    rw [hn]
    exact fiber_partition (U.filter fun t => t.1 = a) fun t => t.2.1

theorem expand_condense (U : Finset Triple) (hU : ∀ t ∈ U, validTriple t) :
    expandEntries (condense_unassigned U) = U.val := by
  unfold condense_unassigned
  rw [sortFinset_eq_sort, expandEntries_flatMap]
  simp only [condensePerNpa_expand U hU]
  have hn : npasOf U = U.image fun t => t.1 := rfl
  rw [hn]
  exact fiber_partition U fun t => t.1

/-- C1: round-trip law.  For every unassigned set U of Universe triples,
expanding the condensed sequence — a bare NPA entry to all 8,000 triples
under it, an NPA-NXX entry to its 10 triples, a full triple to itself —
reconstructs exactly U as a multiset: no triple omitted, none duplicated. -/
theorem roundtrip_law (U : Finset Triple) (hU : ∀ t ∈ U, validTriple t) :
    expandEntries (condense_unassigned U) = U.val :=
  expand_condense U hU

/-- Witness for C1 at the singleton unassigned set {(200, 200, 0)}. -/
theorem roundtrip_law_witness :
    (∀ t ∈ ({("200", "200", "0")} : Finset Triple), validTriple t) ∧
    expandEntries (condense_unassigned {("200", "200", "0")}) =
      ({("200", "200", "0")} : Finset Triple).val :=
  ⟨by decide, roundtrip_law {("200", "200", "0")} (by decide)⟩

/-- C8: idempotence.  Re-condensing the expansion of a condensed result
yields the same condensed sequence. -/
theorem condense_idempotent (U : Finset Triple) (hU : ∀ t ∈ U, validTriple t) :
    condense_unassigned (expandFinset (condense_unassigned U)) = condense_unassigned U := by
  rw [expandFinset, expand_condense U hU, Finset.val_toFinset]

/-- Witness for C8 at the singleton unassigned set {(200, 205, 3)}. -/
theorem condense_idempotent_witness :
    (∀ t ∈ ({("200", "205", "3")} : Finset Triple), validTriple t) ∧
    condense_unassigned (expandFinset (condense_unassigned {("200", "205", "3")})) =
      condense_unassigned {("200", "205", "3")} :=
  ⟨by decide, condense_idempotent {("200", "205", "3")} (by decide)⟩

/-- C5 (amended): in the §8 fixture (universe restricted to TopLevelKey
"200" with SubKeys "200" and "205", records [(200,205,'3'), (200,205,'A')]),
the AssignedSet is exactly {200-205-3} (mixed case, catch-all ignored), and
the condensed complement is ByComposite(200,200) followed by NINE ByTriple
entries for blocks 0,1,2,4,5,6,7,8,9 in ascending order. -/
theorem concrete_scenario :
    assignedOf scenarioRecords = {("200", "205", "3")} ∧
    condense_unassigned scenarioUnassigned =
      [CondensedEntry.byComposite "200" "200",
       CondensedEntry.byTriple "200" "205" "0",
       CondensedEntry.byTriple "200" "205" "1",
       CondensedEntry.byTriple "200" "205" "2",
       CondensedEntry.byTriple "200" "205" "4",
       CondensedEntry.byTriple "200" "205" "5",
       CondensedEntry.byTriple "200" "205" "6",
       CondensedEntry.byTriple "200" "205" "7",
       CondensedEntry.byTriple "200" "205" "8",
       CondensedEntry.byTriple "200" "205" "9"] := by
  constructor
  · decide
  · decide

/-- Counterexample for C5: the condensed output of the fixture contains
nine ByTriple entries, not six as the claim states. -/
theorem concrete_scenario_counterexample :
    ((condense_unassigned scenarioUnassigned).filter isByTripleEntry).length = 9 ∧
    ((condense_unassigned scenarioUnassigned).filter isByTripleEntry).length ≠ 6 := by
  constructor
  · decide
  · decide
